import Mathlib

/-!
Verification of the mdict-ts MDict dictionary reader.

The definitions below are a shallow embedding of the library's source:
`src/mdict/util.js` (key normalization, record-block table, stylesheet),
`src/mdict/Scan` (the byte scanner, `src/unnamed/part_000`),
`src/mdict/mdict-parser.ts` (header / index parsing) and
`src/mdict/mdict.ts` (the lookup engine).  JavaScript strings are modelled
as Lean `String` (code-unit comparison on the BMP coincides with Lean's
character order); JavaScript's ASCII `toLowerCase` / `trim` are modelled
explicitly below.
-/

namespace Mdict

/-- Characters treated as whitespace by `String.prototype.trim` (ASCII
fragment): space (32), tab (9), newline (10), carriage return (13). -/
def isWsChar (c : Char) : Bool :=
  c.toNat = 32 ∨ c.toNat = 9 ∨ c.toNat = 10 ∨ c.toNat = 13

/-- JavaScript `String.prototype.trim`: drop whitespace from both ends. -/
def jsTrim (s : String) : String :=
  String.mk (List.rdropWhile isWsChar (s.data.dropWhile isWsChar))

/-- JavaScript `toLowerCase` on one character (ASCII range, the fragment the
dictionary keys exercise): `A`–`Z` (codes 65–90) map to `a`–`z`, all else
unchanged. -/
def lowerChar (c : Char) : Char :=
  if 65 ≤ c.toNat ∧ c.toNat ≤ 90 then Char.ofNat (c.toNat + 32) else c

/-- JavaScript `String.prototype.toLowerCase` (ASCII fragment). -/
def lowerStr (s : String) : String :=
  String.mk (s.data.map lowerChar)

/-- JavaScript `<` on strings: lexicographic by code unit (for the BMP this
is codepoint order, Lean's `Char` order). -/
def jsLtCh : List Char → List Char → Bool
  | _, [] => false
  | [], _ :: _ => true
  | a :: as, b :: bs => if a < b then true else if b < a then false else jsLtCh as bs

/-- JavaScript `a < b` on strings. -/
def jsLt (a b : String) : Bool :=
  jsLtCh a.data b.data

/-- JavaScript `a > b` on strings. -/
def jsGt (a b : String) : Bool :=
  jsLtCh b.data a.data

/-- JavaScript `a <= b` on strings (total order: `¬ b < a`). -/
def jsLe (a b : String) : Bool :=
  ! jsLtCh b.data a.data

/-- Model of `util.js` `isTrue`: `((v || false) + '').toLowerCase()` equals `'yes'` or
`'true'`.  The empty string is falsy and yields `"false"`, hence `false`. -/
def jsIsTrue (v : String) : Bool :=
  if v = "" then false else (lowerStr v = "yes" ∨ lowerStr v = "true")

/-- JavaScript `a || b` on strings: the empty string is falsy. -/
def jsOrStr (a b : String) : String :=
  if a = "" then b else a

/-- The character class of `REGEXP_STRIPKEY['mdx']`, `/[()., '/\@_-]()/g`, by
code point: `(` 40, `)` 41, `.` 46, `,` 44, space 32, apostrophe 39, `/` 47,
backslash 92, `@` 64, `_` 95, `-` 45.  Replacement `'$1'` (an empty capture)
deletes them. -/
def stripCharCodes : List Nat :=
  [40, 41, 46, 44, 32, 39, 47, 92, 64, 95, 45]

/-- Model of `key.replace(REGEXP_STRIPKEY['mdx'], '$1')`: remove every stripped character. -/
def stripKeyMdx (s : String) : String :=
  String.mk (s.data.filter (fun c => ¬ c.toNat ∈ stripCharCodes))

/-- In `getAdaptKey` the expression `this.v2` evaluates `this` of the module
scope (the function is called without a receiver), not the `Scan` instance;
the property is therefore undefined, i.e. falsy. -/
def jsThisV2 : Bool := false

/-- Header attributes relevant to the embedded components, with the defaults
`read_header_sect` installs before copying XML attributes (`''` for strings). -/
structure HeaderAttrs where
  KeyCaseSensitive : String := ""
  StripKey : String := ""
  Encrypted : String := ""
  StyleSheet : String := ""
deriving Repr, DecidableEq

/-- Model of `util.js` `getAdaptKey(attrs, ext)` for `ext = 'mdx'`:

* case-sensitive: strip when `StripKey` is true, else identity;
* otherwise: lowercase, and strip when `isTrue(attrs.StripKey || (this.v2 ? '' : 'yes'))`
  holds (with `this.v2` undefined, the default is always `'yes'`). -/
def getAdaptKey (attrs : HeaderAttrs) : String → String :=
  if jsIsTrue attrs.KeyCaseSensitive then
    fun key => if jsIsTrue attrs.StripKey then stripKeyMdx key else key
  else
    fun key =>
      if jsIsTrue (jsOrStr attrs.StripKey (if jsThisV2 then "" else "yes")) then
        stripKeyMdx (lowerStr key)
      else lowerStr key

/-! ## The byte scanner (`Scan`, `src/unnamed/part_000`)

A buffer is a list of bytes; a read returns the value together with the
scanner offset after the read (`conseq(value, this.forward(n))`).  A
`DataView` access outside the buffer throws, modelled as `none`. -/

/-- Model of `DataView.getUint8`. -/
def getUint8 (buf : List Nat) (off : Nat) : Option Nat :=
  buf.get? off

/-- Model of `DataView.getUint32` (big-endian, the MDict byte order). -/
def getUint32be (buf : List Nat) (off : Nat) : Option Nat :=
  match buf.get? off, buf.get? (off+1), buf.get? (off+2), buf.get? (off+3) with
  | some b0, some b1, some b2, some b3 =>
      some (b0 * 16777216 + b1 * 65536 + b2 * 256 + b3)
  | _, _, _, _ => none

/-- Model of `Scan.readInt`: read a 32-bit big-endian unsigned integer and advance 4. -/
def readInt (buf : List Nat) (off : Nat) : Option (Nat × Nat) :=
  (getUint32be buf off).map (fun v => (v, off + 4))

/-- Model of `readNum` for engine version < 2: plain `readInt`. -/
def readNumV1 (buf : List Nat) (off : Nat) : Option (Nat × Nat) :=
  readInt buf off

/-- Model of `readNum` for engine version ≥ 2: `this.forward(4); return this.readInt()` —
skip the high 4 bytes of the 64-bit field, then read the low 32 bits. -/
def readNumV2 (buf : List Nat) (off : Nat) : Option (Nat × Nat) :=
  readInt buf (off + 4)

/-- Big-endian byte decomposition of a 32-bit value. -/
def beBytes4 (n : Nat) : List Nat :=
  [n / 16777216 % 256, n / 65536 % 256, n / 256 % 256, n % 256]

/-- The 8 bytes of a 64-bit big-endian field with high word `hi`, low word `lo`. -/
def beBytes8 (hi lo : Nat) : List Nat :=
  beBytes4 hi ++ beBytes4 lo

/-! ## Header section (`mdict-parser.ts` `read_header_sect`) -/

/-- Model of `parseInt(s, 10) || 0` on the decimal-digit fragment the `Encrypted`
attribute uses: value of the leading digit run, `0` when there is none
(`parseInt` yields `NaN`, and `NaN || 0` is `0`). -/
def jsParseIntNat (s : String) : Nat :=
  (s.data.takeWhile Char.isDigit).foldl (fun acc c => acc * 10 + (c.toNat - 48)) 0

/-- Result of `read_header_sect`: the parsed `Encrypted` flag, whether the
keyword-index decryptor was installed, and the returned remaining length.
The source function contains no failure path: it never throws for any value
of the `Encrypted` attribute. -/
structure HeaderResult where
  encrypted : Nat
  decryptorInstalled : Bool
  headerRemainLen : Nat
deriving Repr, DecidableEq

/-- Model of `read_header_sect` (attribute-handling tail): coerce `Encrypted` with
`parseInt(...) || 0`, install the keyword-index decryptor iff bit 2
(`Encrypted & 0x02`) is set, and return `len + 4`. -/
def read_header_sect (attrs : HeaderAttrs) (len : Nat) : HeaderResult :=
  let e := jsParseIntNat attrs.Encrypted
  { encrypted := e
    decryptorInstalled := (e &&& 2) ≠ 0
    headerRemainLen := len + 4 }

/-! ## Record block table (`util.js` `createRecordBlockTable`)

The backing `Uint32Array` holds pairs `(comp_offset, decomp_offset)`; we model
it as a list of pairs.  `find` binary-searches the decompressed offsets. -/

/-- The block descriptor `find` builds from pairs `i` and `i+1`.  The sizes are
plain JavaScript subtractions, modelled over `Int`. -/
structure RecordBlockDesc where
  block_no : Nat
  comp_offset : Nat
  comp_size : Int
  decomp_offset : Nat
  decomp_size : Int
deriving Repr, DecidableEq

/-- Lookup `arr[(i << 1) + 1]`: the decompressed offset of pair `i`.  Under `find`'s
loop invariants the index is always in range; the default 0 mirrors nothing
observable. -/
def dOff (tbl : List (Nat × Nat)) (i : Nat) : Nat :=
  ((tbl.get? i).getD (0, 0)).2

/-- The object returned from `find`'s success exit, built from `arr[i..i+3]`. -/
def rbtDescAt (tbl : List (Nat × Nat)) (i : Nat) : Option RecordBlockDesc :=
  match tbl.get? i, tbl.get? (i+1) with
  | some p, some q =>
      some ⟨i, p.1, (q.1 : Int) - (p.1 : Int), p.2, (q.2 : Int) - (p.2 : Int)⟩
  | _, _ => none

/-- The `while (true)` loop of `find`.  At each entry `i = (lo + hi) >> 1`;
when `hi - lo <= 1` the loop exits with pair `i` if `i < hi`, else with
`undefined`; otherwise `keyAt < val` narrows to the left half, else the right. -/
def rbtFindAuxGo (tbl : List (Nat × Nat)) (keyAt : Int) : Nat → Nat → Nat → Option Nat
  | lo, hi, 0 =>
      -- the interval halves at every step, so fuel ≥ hi - lo never runs out
      -- before the `hi - lo <= 1` exit; this base case coincides with it
      let i := (lo + hi) / 2
      if i < hi then some i else none
  | lo, hi, fuel + 1 =>
      if hi - lo ≤ 1 then
        let i := (lo + hi) / 2
        if i < hi then some i else none
      else
        let i := (lo + hi) / 2
        if keyAt < (dOff tbl i : Int) then rbtFindAuxGo tbl keyAt lo i fuel
        else rbtFindAuxGo tbl keyAt i hi fuel

/-- The loop, started with enough fuel for its halving measure. -/
def rbtFindAux (tbl : List (Nat × Nat)) (keyAt : Int) (lo hi : Nat) : Option Nat :=
  rbtFindAuxGo tbl keyAt lo hi (hi - lo)

/-- Model of `find(keyAt)`: range-guard `keyAt > arr[(hi << 1) + 1] || keyAt < 0`
(with `hi` the last pair index), then the binary-search loop. -/
def rbtFind (tbl : List (Nat × Nat)) (keyAt : Int) : Option RecordBlockDesc :=
  let hi := tbl.length - 1
  if keyAt > (dOff tbl hi : Int) ∨ keyAt < 0 then none
  else
    match rbtFindAux tbl keyAt 0 hi with
    | some i => rbtDescAt tbl i
    | none => none

/-- The `put` loop of `read_record_block`: starting from absolute compressed
position `p0` and decompressed position `p1`, store one `(p0, p1)` pair per
record block of sizes `(comp_size, decomp_size)`, then the final sentinel. -/
def buildTableGo (p0 p1 : Nat) : List (Nat × Nat) → List (Nat × Nat)
  | [] => [(p0, p1)]
  | (cs, ds) :: rest => (p0, p1) :: buildTableGo (p0 + cs) (p1 + ds) rest

/-- Model of `read_record_block`'s table: `put(p0, p1)` for each block plus a sentinel,
with `p0` starting at `record_summary.block_pos` and `p1` at 0. -/
def buildTable (p0 : Nat) (blocks : List (Nat × Nat)) : List (Nat × Nat) :=
  buildTableGo p0 0 blocks

/-! ## Stylesheet (`util.js` `getGlobalStyle` / `parseRes`)

A JavaScript array with holes is a `List (Option _)`; `Number(e)` on the
token fragment these functions see (decimal digit runs vs. markup text) is
`some` of the value on an all-digit token and `none` (`NaN`) otherwise. -/

/-- JavaScript `String.prototype.split` with a one-character separator, on character
lists: `split('x')` of the empty string is `[""]`, separators delimit
(possibly empty) fields. -/
def splitChar (sep : Char) : List Char → List (List Char)
  | [] => [[]]
  | c :: cs =>
      match splitChar sep cs with
      | [] => [[]]   -- unreachable: the result is never empty
      | h :: t => if c = sep then [] :: h :: t else (c :: h) :: t

/-- JavaScript `s.split(sep)` for a one-character separator. -/
def jsSplit (sep : Char) (s : String) : List String :=
  (splitChar sep s.data).map String.mk

/-- JavaScript `Number(e)` restricted to the tokens at hand: an unsigned decimal integer
parses, anything else (markup such as `<b>` or `/i`, text with spaces) is NaN. -/
def jsNumberNat (s : String) : Option Nat :=
  if s ≠ "" ∧ s.data.all Char.isDigit then
    some (s.data.foldl (fun acc c => acc * 10 + (c.toNat - 48)) 0)
  else none

/-- Array read `res[i]`: `undefined` past the end or at a hole. -/
def jsGetArr {α : Type} (res : List (Option α)) (i : Nat) : Option α :=
  (res.get? i).getD none

/-- Array write `res[i] = v`: extend with holes as needed. -/
def jsSetArr {α : Type} (res : List (Option α)) (i : Nat) (v : α) : List (Option α) :=
  if i < res.length then res.set i (some v)
  else res ++ List.replicate (i - res.length) none ++ [some v]

/-- One `forEach` step of `getGlobalStyle`: skip empty tokens; a numeric token
advances `i`; otherwise initialize `res[i]` to `['']` when absent, then either
append `' ' + e` to element 0 (token without `/`) or push the token. -/
def styleStep (st : List (Option (List String)) × Nat) (e : String) :
    List (Option (List String)) × Nat :=
  let (res, i) := st
  if e = "" then st
  else
    match jsNumberNat e with
    | some _ => (res, i + 1)
    | none =>
        let cur := (jsGetArr res i).getD [""]
        let cur' :=
          if e.data.contains '/' then cur ++ [e]
          else
            match cur with
            | [] => [" " ++ e]   -- unreachable: entries are created as ['']
            | h :: t => (h ++ " " ++ e) :: t
        (jsSetArr res i cur', i)

/-- Model of `getGlobalStyle(stylesheet)`: fold the split-on-space token list. -/
def getGlobalStyle (stylesheet : String) : List (Option (List String)) :=
  ((jsSplit ' ' stylesheet).foldl styleStep ([], 0)).1

/-- String conversion JavaScript applies when concatenating a possibly-missing
array element: `undefined` renders as `"undefined"`. -/
def jsStrOpt (o : Option String) : String :=
  o.getD "undefined"

/-- The `for` loop of `parseRes` over the backtick-split segments.  A truthy
segment with truthy numeric value `num` emits
`style[num][0] + str[++k] + style[num][1]` and skips the consumed segment;
all other segments are dropped.  `style[num]` being a hole is a TypeError,
modelled as `none`. -/
def parseResLoop (style : List (Option (List String))) : List String → Option String
  | [] => some ""
  | p :: rest =>
      if p ≠ "" ∧ (jsNumberNat p).getD 0 ≠ 0 then
        match jsGetArr style ((jsNumberNat p).getD 0) with
        | none => none
        | some entry =>
            let chunk :=
              jsStrOpt (entry.get? 0) ++ jsStrOpt rest.head? ++ jsStrOpt (entry.get? 1)
            match rest with
            | [] => some chunk
            | _ :: rest2 => (parseResLoop style rest2).map (fun tail => chunk ++ tail)
      else parseResLoop style rest

/-- Model of `parseRes(str, style)`: split on backticks and run the loop. -/
def parseRes (str : String) (style : List (Option (List String))) : Option String :=
  parseResLoop style (jsSplit '`' str)

/-! ## Dictionary model and the lookup engine (`mdict.ts`)

`KEY_INDEX` is the in-memory keyword index of blocks; the decoded entries of
each key block (`loadKeys`' result: `{word, offset}` objects) are carried in
the block record directly.  `loadKeys` is modelled without its single-slot
MRU cache, which — when coherent — returns the identical list. -/

/-- One decoded keyword entry (`{word, offset}`; `size` plays no role in the
verified paths). -/
structure KeyEntry where
  word : String
  offset : Nat
deriving Repr, DecidableEq

/-- One `KEY_INDEX` element, with the decoded content of its key block. -/
structure KeyIndexEntry where
  num_entries : Nat
  first_word : String
  last_word : String
  index : Nat
  entries : List KeyEntry
deriving Repr, DecidableEq

/-- A parsed dictionary: its `KEY_INDEX`. -/
structure Dict where
  keyIndex : List KeyIndexEntry
deriving Repr, DecidableEq

/-- All keyword entries in stored order. -/
def Dict.allEntries (d : Dict) : List KeyEntry :=
  (d.keyIndex.map KeyIndexEntry.entries).flatten

/-- Model of `loadKeys(kdx)` — decode the key block of `kdx` (cache elided). -/
def loadKeys (_d : Dict) (kdx : KeyIndexEntry) : List KeyEntry :=
  kdx.entries

/-- The recursion of `reduce(arr, phrase)`, on fuel ≥ `arr.length` (the array
at least halves each step, so the fuel never runs out before the base case;
the fuel-0 base coincides with the `len <= 1` exit). -/
def reduceGo (ak : String → String) (phrase : String) :
    List KeyIndexEntry → Nat → Option KeyIndexEntry
  | arr, 0 => arr.head?
  | arr, fuel + 1 =>
      if h : arr.length > 1 then
        let len := arr.length / 2
        if jsGt phrase (ak (arr.get ⟨len - 1, by omega⟩).last_word) then
          reduceGo ak phrase (arr.drop len) fuel
        else
          reduceGo ak phrase (arr.take len) fuel
      else arr.head?

/-- Model of `reduce(arr, phrase)`: halve towards the first block whose adapted
`last_word` is ≥ the phrase (`arr[0]` of an empty array is `undefined`). -/
def reduce (ak : String → String) (arr : List KeyIndexEntry) (phrase : String) :
    Option KeyIndexEntry :=
  reduceGo ak phrase arr arr.length

/-- The recursion of `shrink(arr, phrase)` on fuel ≥ `arr.length`; `pos`
threads the `sub.pos` bookkeeping (`arr.pos || 0`). -/
def shrinkGo (ak : String → String) (phrase : String) :
    List KeyEntry → Nat → Nat → Nat
  | arr, pos, 0 =>
      match arr.head? with
      | some e => pos + (if jsLe phrase (ak e.word) then 0 else 1)
      | none => pos
  | arr, pos, fuel + 1 =>
      if h : arr.length > 1 then
        let len := arr.length / 2
        let key := ak (arr.get ⟨len, by omega⟩).word
        if jsLt phrase key then shrinkGo ak phrase (arr.take len) pos fuel
        else shrinkGo ak phrase (arr.drop len) (pos + len) fuel
      else
        match arr.head? with
        | some e => pos + (if jsLe phrase (ak e.word) then 0 else 1)
        | none => pos   -- unreachable: `shrink` only runs on decoded blocks

/-- Model of `shrink(arr, phrase)`: halve towards the split position of the phrase in
the block's entries. -/
def shrink (ak : String → String) (arr : List KeyEntry) (pos : Nat)
    (phrase : String) : Nat :=
  shrinkGo ak phrase arr pos arr.length

/-- The `while (prev = this.KEY_INDEX[index])` look-back of `seekVanguard`:
step to earlier blocks while their adapted `last_word` equals the current
one's.  The argument `i` is the JavaScript `index + 1`, so `0` is the exit
at `KEY_INDEX[-1]`. -/
def walkBackLoop (ak : String → String) (kidx : List KeyIndexEntry) :
    KeyIndexEntry → Nat → KeyIndexEntry
  | cur, 0 => cur
  | cur, i + 1 =>
      match kidx.get? i with
      | none => cur
      | some prev =>
          if ak prev.last_word ≠ ak cur.last_word then cur
          else walkBackLoop ak kidx prev i

/-- The `while (idx > 0)` look-back over the decoded entries: step `idx` back
while the preceding entry adapts equal to the (adapted) phrase. -/
def seekBackLoop (ak : String → String) (list : List KeyEntry) (target : String) :
    Nat → Nat
  | 0 => 0
  | i + 1 =>
      match list.get? i with
      | none => i + 1   -- unreachable for the in-range starts `seekVanguard` uses
      | some e => if ak e.word ≠ target then i + 1 else seekBackLoop ak list target i

/-- Model of `seekVanguard(phrase)`: adapt the phrase, `reduce` over `KEY_INDEX`, walk
back across blocks with equal adapted `last_word`, load the block, `shrink`,
walk back to the first adapted match, and clamp with
`Math.min(idx, list.length - 1)`.  `none` models the `TypeError` on an empty
`KEY_INDEX`. -/
def seekVanguard (ak : String → String) (d : Dict) (phrase0 : String) :
    Option (KeyIndexEntry × Nat × List KeyEntry) :=
  let phrase := ak phrase0
  match reduce ak d.keyIndex phrase with
  | none => none
  | some kdx0 =>
      let kdx :=
        if jsLe phrase (ak kdx0.last_word) then
          walkBackLoop ak d.keyIndex kdx0 kdx0.index
        else kdx0
      let list := loadKeys d kdx
      let idx0 := shrink ak list 0 phrase
      let idx := seekBackLoop ak list (ak phrase) idx0
      some (kdx, min idx (list.length - 1), list)

/-- The `some` callback of `matchOffset` is a block-bodied arrow with no
`return` statement: it evaluates `el.offset === offset ? list = [el] : false`
for its side effect and yields `undefined`, which is falsy. -/
def matchOffsetCallback (_el : KeyEntry) : Bool :=
  false

/-- Model of `matchOffset(list, offset)`: `list.some(...) ? list : []`.  The reassigned
`list` (the fold) would be returned if `some` ever yielded true. -/
def matchOffset (list : List KeyEntry) (offset : Nat) : List KeyEntry :=
  if list.any matchOffsetCallback then
    list.foldl (fun acc el => if el.offset = offset then [el] else acc) list
  else []

/-- The string-query branch of `mdx(query, offset)`: trim and lowercase, run
`seekVanguard`, slice from the found index, and — when a truthy `offset` was
passed — filter through `matchOffset` (`0` is falsy and skips the filter). -/
def mdx (ak : String → String) (d : Dict) (query : String)
    (offset : Option Nat) : Option (List KeyEntry) :=
  let word := lowerStr (jsTrim query)
  (seekVanguard ak d word).map (fun r =>
    let list := r.2.2.drop r.2.1
    match offset with
    | some o => if o ≠ 0 then matchOffset list o else list
    | none => list)

/-- What `getDefinition` ultimately resolves to: the definition text, or — via
the `redirects` → `mdx` path — a list of word entries. -/
inductive DefResult where
  | defn (s : String)
  | words (l : List KeyEntry)
deriving Repr, DecidableEq

/-- Model of `redirects(definition)`: pass non-link text through; for a `'@@@LINK='`
definition, re-enter `this.mdx(definition.substring(8))` — whose string-query
branch returns a *word list*, not a definition. -/
def redirects (ak : String → String) (d : Dict) (definition : String) :
    Option DefResult :=
  if definition.take 8 ≠ "@@@LINK=" then some (.defn definition)
  else (mdx ak d (definition.drop 8) none).map .words

/-- Model of `getDefinition(offset)` with the record-block read abstracted into
`readDef` (`RECORD_BLOCK_TABLE.find` + `readDefinition`): apply the
stylesheet when present, then `redirects`. -/
def getDefinition (ak : String → String) (d : Dict)
    (style : List (Option (List String))) (readDef : Nat → Option String)
    (offset : Nat) : Option DefResult :=
  (readDef offset).bind (fun definition =>
    let definition' :=
      if style.length ≠ 0 then parseRes definition style else some definition
    definition'.bind (redirects ak d))

/-- The dictionary of C1's scenario: `"cat"` redirects to `"feline"`. -/
def linkDict : Dict :=
  { keyIndex := [{ num_entries := 2, first_word := "cat", last_word := "feline",
                   index := 0,
                   entries := [⟨"cat", 0⟩, ⟨"feline", 8⟩] }] }

/-- The record store of C1's scenario. -/
def linkReadDef (offset : Nat) : Option String :=
  if offset = 0 then some "@@@LINK=feline"
  else if offset = 8 then some "feline means cat" else none

/-! ## Paged enumeration (`matchKeys` / `appendMore` / `followUp`)

The wildcard branch of `matchKeys` builds a regex from the trimmed lowercased
phrase (`*` → `.*`, `?` → `.`, everything else escaped to a literal); its
semantics is glob matching.  The `filter` closure mutates `this.trail`; it is
modelled by threading the trail explicitly.  Crucially, the source applies
`tester` to the list *element* — a `{word, offset}` object, which JavaScript
coerces to the string `"[object Object]"` — not to its `word`. -/

/-- Default `Object.prototype.toString` of a plain `{word, offset}` entry. -/
def jsEntryToString (_e : KeyEntry) : String :=
  "[object Object]"

/-- Glob semantics of the constructed anchored regex, with fuel for structural
recursion (`fuel ≥ pattern.length + s.length + 1` on every reachable call). -/
def globMatchGo : Nat → List Char → List Char → Bool
  | 0, _, _ => false
  | _ + 1, [], s => s.isEmpty
  | fuel + 1, p :: ps, s =>
      if p = '*' then
        globMatchGo fuel ps s ||
          (match s with
           | [] => false
           | _ :: ss => globMatchGo fuel (p :: ps) ss)
      else
        match s with
        | [] => false
        | c :: ss =>
            if p = '?' then globMatchGo fuel ps ss
            else p = c && globMatchGo fuel ps ss

/-- Semantics of `wildcard.test(s)` for the regex built from pattern `pat`. -/
def globMatch (pat s : List Char) : Bool :=
  globMatchGo (pat.length + s.length + 1) pat s

/-- Model of `/([^?*]+)[?*]+/.exec(str)`: the first capture — the maximal run of
non-wildcard characters immediately followed by at least one `?` or `*` —
or `none` when the regex does not match. -/
def wildcardCapture : List Char → Option (List Char)
  | [] => none
  | c :: cs =>
      if c = '?' ∨ c = '*' then wildcardCapture cs
      else
        let r := (c :: cs).takeWhile (fun x => ¬ (x = '?' ∨ x = '*'))
        let rest := (c :: cs).dropWhile (fun x => ¬ (x = '?' ∨ x = '*'))
        if rest.isEmpty then none else some r

/-- The `trail` session object. -/
structure Trail where
  phrase : String
  block : Nat
  offset : Nat
  pos : Nat
  count : Nat
  total : Nat
  exhausted : Bool
deriving Repr, DecidableEq

/-- The reader state `matchKeys` touches: `trail` and `mutual_ticket`. -/
structure SearchState where
  trail : Option Trail
  mutual_ticket : Nat
deriving Repr, DecidableEq

/-- A freshly opened reader: `trail = null`, `mutual_ticket = 0`. -/
def freshState : SearchState :=
  { trail := none, mutual_ticket := 0 }

/-- Model of `list.filter(filter, this.trail)` with the stateful `filter` closure:
accept while `trail.count < expectedSize` and the tester passes on the
*stringified entry*, updating `count`, `total` and `pos = i + 1`. -/
def applyFilter (tester : String → Bool) (expectedSize : Nat) :
    List KeyEntry → Trail → Nat → List KeyEntry × Trail
  | [], tr, _ => ([], tr)
  | e :: rest, tr, i =>
      if tr.count < expectedSize ∧ tester (jsEntryToString e) then
        let tr1 := { tr with count := tr.count + 1, total := tr.total + 1, pos := i + 1 }
        let (acc, tr2) := applyFilter tester expectedSize rest tr1 (i + 1)
        (e :: acc, tr2)
      else
        applyFilter tester expectedSize rest tr (i + 1)

/-- The terminal branch of filtered `appendMore`: mark the trail exhausted
when nothing was collected. -/
def appendMoreFilteredStop (list : List KeyEntry) (tr : Trail) : List KeyEntry × Trail :=
  if list.length = 0 then (list, { tr with exhausted := true }) else (list, tr)

/-- Model of `appendMore` with a filter: while `trail.count < expectedSize` and the
next block's `first_word` starts with the prefix `word`, load it, reset
`trail.offset`, advance `trail.block`, filter, and recurse on the block after
it.  Fuel ≥ remaining blocks + 1 on every call from `matchKeys`.
(`KEY_INDEX[i].index = i` by construction in `read_keyword_index`.) -/
def appendMoreFiltered (d : Dict) (tester : String → Bool) (expectedSize : Nat)
    (word : String) : List KeyEntry → Trail → Nat → Nat → List KeyEntry × Trail
  | list, tr, _, 0 => appendMoreFilteredStop list tr
  | list, tr, nextIdx, fuel + 1 =>
      match d.keyIndex.get? nextIdx with
      | some nextKdx =>
          if tr.count < expectedSize ∧
              String.mk (nextKdx.first_word.data.take word.data.length) = word then
            let more := loadKeys d nextKdx
            let tr1 := { tr with offset := 0, block := nextKdx.index }
            let (accepted, tr2) := applyFilter tester expectedSize more tr1 0
            appendMoreFiltered d tester expectedSize word (list ++ accepted) tr2
              (nextKdx.index + 1) fuel
          else appendMoreFilteredStop list tr
      | none => appendMoreFilteredStop list tr

/-- The terminal branch of unfiltered `appendMore`: clamp `trail.pos`, trim
the list to `expectedSize`, record `count` and add it to `total`. -/
def appendMoreTrim (expectedSize : Nat) (list : List KeyEntry) (tr : Trail) :
    List KeyEntry × Trail :=
  let tr1 := if tr.pos > expectedSize then { tr with pos := expectedSize } else tr
  let list1 := list.take expectedSize
  (list1, { tr1 with count := list1.length, total := tr1.total + list1.length })

/-- Model of `appendMore` without a filter: while short of `expectedSize` and a next
block exists, load it and append its first `shortage` entries. -/
def appendMoreUnfiltered (d : Dict) (expectedSize : Nat) :
    List KeyEntry → Trail → Nat → Nat → List KeyEntry × Trail
  | list, tr, _, 0 => appendMoreTrim expectedSize list tr
  | list, tr, nextIdx, fuel + 1 =>
      match d.keyIndex.get? nextIdx with
      | some nextKdx =>
          if list.length < expectedSize then
            let shortage := expectedSize - list.length
            let more := loadKeys d nextKdx
            let tr1 :=
              { tr with
                block := nextKdx.index
                offset := 0
                pos := min shortage more.length }
            appendMoreUnfiltered d expectedSize (list ++ more.take shortage) tr1
              (nextKdx.index + 1) fuel
          else appendMoreTrim expectedSize list tr
      | none => appendMoreTrim expectedSize list tr

/-- Model of `followUp()`: reload the trail's block and resume at
`min(trail.offset + trail.pos, list.length - 1)`. -/
def followUp (d : Dict) (tr : Trail) : Option (KeyIndexEntry × Nat × List KeyEntry) :=
  match d.keyIndex.get? tr.block with
  | none => none
  | some kdx =>
      some (kdx, min (tr.offset + tr.pos) ((loadKeys d kdx).length - 1), loadKeys d kdx)

/-- Model of `matchKeys(phrase, expectedSize, follow)`.  The mutual-ticket check always
passes within one synchronous call (the ticket is incremented and passed
down); the returned state carries the incremented counter. -/
def matchKeys (ak : String → String) (d : Dict) (st : SearchState)
    (phrase : String) (expectedSize0 : Nat) (follow0 : Bool) :
    Option (List KeyEntry × SearchState) :=
  let expectedSize := max expectedSize0 10
  let str := lowerStr (jsTrim phrase)
  let cap := wildcardCapture str.data
  let word := match cap with
              | some w => String.mk w
              | none => jsTrim phrase
  let tester : Option (String → Bool) :=
    match cap with
    | some _ =>
        let glob := fun s : String => globMatch str.data s.data
        some (if phrase.data.getLast? = some ' ' then glob
              else fun s => glob s && ! s.data.contains ' ')
    | none => none
  let follow1 := match st.trail with
                 | some tr => if tr.phrase ≠ phrase then false else follow0
                 | none => follow0
  if follow1 && (match st.trail with | some tr => tr.exhausted | none => false) then
    some ([], st)
  else
    let start := match st.trail with
                 | some tr => if follow1 then followUp d tr else seekVanguard ak d word
                 | none => seekVanguard ak d word
    start.map (fun r =>
      let kdx := r.1
      let idx := r.2.1
      let listT := r.2.2.drop idx
      let tr0 : Trail :=
        { phrase := phrase, block := kdx.index, offset := idx, pos := listT.length,
          count := 0,
          total := if follow1 then
                     (match st.trail with | some t => t.total | none => 0)
                   else 0,
          exhausted := false }
      let ticket := st.mutual_ticket + 1
      let (list1, tr1) :=
        match tester with
        | some f => applyFilter f expectedSize listT tr0 0
        | none => (listT, tr0)
      let (result, tr2) :=
        match tester with
        | some f => appendMoreFiltered d f expectedSize word list1 tr1 (kdx.index + 1)
                      (d.keyIndex.length + 1)
        | none => appendMoreUnfiltered d expectedSize list1 tr1 (kdx.index + 1)
                      (d.keyIndex.length + 1)
      let tr3 :=
        if tr2.block = d.keyIndex.length - 1 ∧
            tr2.offset + tr2.pos ≥
              ((d.keyIndex.get? tr2.block).map KeyIndexEntry.num_entries).getD 0 then
          { tr2 with exhausted := true }
        else tr2
      (result, { trail := some tr3, mutual_ticket := ticket }))

/-- The dictionary of C9's scenario: one key block holding `app`, `apple`,
`apply`. -/
def appDict : Dict :=
  ⟨[{ num_entries := 3, first_word := "app", last_word := "apply", index := 0,
      entries := [⟨"app", 0⟩, ⟨"apple", 10⟩, ⟨"apply", 20⟩] }]⟩

/-- A case-sensitive dictionary storing `"A"` and `"a"` (in code-unit order,
the order `adapt_key = identity` induces). -/
def csDict : Dict :=
  ⟨[{ num_entries := 2, first_word := "A", last_word := "a", index := 0,
      entries := [⟨"A", 0⟩, ⟨"a", 4⟩] }]⟩

/-- Well-formedness of a successfully opened dictionary relative to its key
normalization `ak`: `KEY_INDEX` is nonempty; the `index` fields enumerate
positions (`read_keyword_index` sets `index := i`); every block decodes to a
nonempty entry list whose last entry's word is the block's `last_word`; and
the concatenation of all entries is sorted non-decreasingly under `ak`. -/
def WellFormed (ak : String → String) (d : Dict) : Prop :=
  d.keyIndex ≠ [] ∧
  (∀ i (h : i < d.keyIndex.length), (d.keyIndex.get ⟨i, h⟩).index = i) ∧
  (∀ b ∈ d.keyIndex, b.entries ≠ [] ∧
    b.entries.getLast?.map KeyEntry.word = some b.last_word) ∧
  List.Pairwise (fun a b => jsLe (ak a.word) (ak b.word) = true) d.allEntries

/-- A case-insensitive v1-style dictionary storing `"Hello-World"`. -/
def hwDict : Dict :=
  ⟨[{ num_entries := 1, first_word := "Hello-World", last_word := "Hello-World",
      index := 0, entries := [⟨"Hello-World", 100⟩] }]⟩

/-! ## Theorems -/

/-- Claim C2 — for a dictionary whose header leaves `KeyCaseSensitive` false and
does not set `StripKey`, `adapt_key` defaults to stripping: it lowercases the
key and removes the punctuation set.  (The v1 default `'yes'` applies: the
`this.v2` escape hatch in the source never fires.) -/
theorem C2_adaptKey_v1_default_strips (attrs : HeaderAttrs) (key : String)
    (hcs : jsIsTrue attrs.KeyCaseSensitive = false)
    (hsk : attrs.StripKey = "") :
    getAdaptKey attrs key = stripKeyMdx (lowerStr key) := by
  unfold getAdaptKey
  rw [hcs]
  simp only [Bool.false_eq_true, if_false, hsk, jsOrStr, jsThisV2, if_true, if_false]
  rfl

/-- Witness for C2 at the header `⟨"", "", "", ""⟩` and the key
`"Hello-World"`, which normalizes to `"helloworld"`. -/
theorem C2_adaptKey_v1_default_strips_witness :
    getAdaptKey {} "Hello-World" = "helloworld" := by
  rw [C2_adaptKey_v1_default_strips {} "Hello-World" rfl rfl]
  rfl

/-- Claim C3, counterexample — on the 8-byte field `0x00000001_00000005` (high
word 1 ≠ 0) the v2 `readNum` does *not* fail: it succeeds and returns the low
word 5, silently discarding the nonzero high word. -/
theorem C3_counterexample_readNumV2_no_failure :
    getUint32be (beBytes8 1 5) 0 = some 1 ∧
      readNumV2 (beBytes8 1 5) 0 = some (5, 8) := by
  constructor <;> rfl

/-- Claim C3 as amended — for every 64-bit big-endian field, v2 `readNum` returns
the low 32 bits and advances 8 bytes, *regardless* of the high word's value;
no check of the discarded bytes is made and no failure occurs. -/
theorem C3_amended_readNumV2_truncates (hi lo : Nat) (hlo : lo < 4294967296) :
    readNumV2 (beBytes8 hi lo) 0 = some (lo, 8) := by
  unfold readNumV2 readInt
  have h4 : getUint32be (beBytes8 hi lo) 4 = some lo := by
    show getUint32be (beBytes4 hi ++ beBytes4 lo) 4 = some lo
    simp only [beBytes4, getUint32be, List.get?]
    norm_num
    omega
  rw [h4]
  rfl

/-- Witness for C3 amended at `hi = 7`, `lo = 42`. -/
theorem C3_amended_readNumV2_truncates_witness :
    readNumV2 (beBytes8 7 42) 0 = some (42, 8) :=
  C3_amended_readNumV2_truncates 7 42 (by norm_num)

/-- Claim C4, counterexample — a header with `Encrypted="1"` (and likewise `"3"`)
does *not* make open fail: `read_header_sect` completes normally, returning
`len + 4` exactly as for an unencrypted file; bit 1 is simply ignored.  For
`Encrypted="3"` the keyword-index decryptor is even installed. -/
theorem C4_counterexample_bit1_not_rejected :
    read_header_sect { Encrypted := "1" } 100 =
        { encrypted := 1, decryptorInstalled := false, headerRemainLen := 104 } ∧
      read_header_sect { Encrypted := "3" } 100 =
        { encrypted := 3, decryptorInstalled := true, headerRemainLen := 104 } := by
  constructor <;> rfl

/-- Claim C4 as amended — `read_header_sect` ignores encryption bit 1: header
parsing completes for every `Encrypted` value (returning `len + 4`), and the
keyword-index decryptor is installed iff bit 2 of the parsed flag is set —
so for `Encrypted="2"` and `"3"`, but not for `"1"`. -/
theorem C4_amended_header_ignores_bit1 (attrs : HeaderAttrs) (len : Nat) :
    (read_header_sect attrs len).headerRemainLen = len + 4 ∧
      ((read_header_sect attrs len).decryptorInstalled ↔
        jsParseIntNat attrs.Encrypted &&& 2 ≠ 0) := by
  refine ⟨rfl, ?_⟩
  simp [read_header_sect]

/-- Claim C6, counterexample — with the header stylesheet `"1 <b> 2 <i> /i /b"`,
entry 1 parses to the single-element `[" <b>"]` (leading space, *no* closing
suffix: the `/i` and `/b` tokens attach to entry 2), and expanding the raw
definition `` "see `1`bold`1` word" `` yields
`" <b>boldundefined <b> wordundefined"` — not `"see <b>bold</b> word"`: the
untagged region `"see "` is dropped and the missing suffix concatenates as
`undefined`. -/
theorem C6_counterexample_stylesheet :
    jsGetArr (getGlobalStyle "1 <b> 2 <i> /i /b") 1 = some [" <b>"] ∧
      parseRes "see `1`bold`1` word" (getGlobalStyle "1 <b> 2 <i> /i /b") =
        some " <b>boldundefined <b> wordundefined" ∧
      (" <b>boldundefined <b> wordundefined" : String) ≠ "see <b>bold</b> word" := by
  refine ⟨?_, ?_, ?_⟩ <;> decide

/-- Claim C6 as amended — what the code actually computes for the scenario:
stylesheet `"1 <b> 2 <i> /i /b"` parses to
`[hole, [" <b>"], [" <i>", "/i", "/b"]]`; expansion of
`` "see `1`bold`1` word" `` emits, for each numeric tag, prefix + next segment
+ (missing) suffix and drops every region not consumed by a tag, giving
`" <b>boldundefined <b> wordundefined"`; a definition with no backtick-tag at
all (e.g. `"plain text"`) collapses to the empty string rather than passing
through. -/
theorem C6_amended_stylesheet_actual :
    getGlobalStyle "1 <b> 2 <i> /i /b" =
        [none, some [" <b>"], some [" <i>", "/i", "/b"]] ∧
      parseRes "see `1`bold`1` word" (getGlobalStyle "1 <b> 2 <i> /i /b") =
        some " <b>boldundefined <b> wordundefined" ∧
      parseRes "plain text" (getGlobalStyle "1 <b> 2 <i> /i /b") = some "" := by
  refine ⟨?_, ?_, ?_⟩ <;> decide

/-- Claim C5 is a code bug — `matchOffset` never returns the matching entry:
on a list that *does* contain an entry with the requested offset it still
returns `[]`, because the `some` callback always returns `undefined`.
(The doc comment says "Match the first element in list with given offset".) -/
theorem C5_matchOffset_always_empty :
    matchOffset [⟨"cat", 5⟩] 5 = [] ∧
      (∀ (list : List KeyEntry) (offset : Nat), matchOffset list offset = []) := by
  refine ⟨rfl, ?_⟩
  intro list offset
  have h : list.any matchOffsetCallback = false := by
    simp [matchOffsetCallback]
  simp [matchOffset, h]

/-- Claim C1 is a code bug — for the record whose decoded definition is
`"@@@LINK=feline"`, `getDefinition` does *not* return the linked keyword's
definition string: `redirects` re-enters `mdx`, whose string branch resolves
to the list of word entries `[{feline, 8}]`.  The claim (and the code's own
doc comments, "resolved actual definition") promise a definition string,
never a list of word entries. -/
theorem C1_redirect_returns_word_list :
    getDefinition (getAdaptKey {}) linkDict [] linkReadDef 0 =
        some (.words [⟨"feline", 8⟩]) ∧
      (∀ s : String,
        getDefinition (getAdaptKey {}) linkDict [] linkReadDef 0 ≠
          some (.defn s)) := by
  refine ⟨by decide, ?_⟩
  intro s h
  have h0 : getDefinition (getAdaptKey {}) linkDict [] linkReadDef 0 =
      some (.words [⟨"feline", 8⟩]) := by decide
  rw [h0] at h
  exact DefResult.noConfusion (Option.some.inj h)

/-- Claim C9 is a code bug — paged wildcard enumeration never returns anything:
on a dictionary whose stored keywords `app`, `apple`, `apply` all match the
wildcard filter for `"app*"` (second conjunct), the first
`getWordList({phrase: "app*", follow: true})` call returns the empty page and
marks the trail exhausted, because the filter applies the tester to the entry
*object* (stringified `"[object Object]"`) instead of to `entry.word`; every
subsequent call then returns `[]` immediately (third conjunct).  The claimed
concatenation of pages is therefore empty instead of the match set. -/
theorem C9_wildcard_filter_tests_object_string :
    (matchKeys (getAdaptKey {}) appDict freshState "app*" 10 true =
        some ([], { trail := some { phrase := "app*", block := 0, offset := 0, pos := 3,
                                    count := 0, total := 0, exhausted := true },
                    mutual_ticket := 1 })) ∧
      (appDict.allEntries.filter
          (fun e => globMatch "app*".data e.word.data && ! e.word.data.contains ' ') =
        [⟨"app", 0⟩, ⟨"apple", 10⟩, ⟨"apply", 20⟩]) ∧
      (matchKeys (getAdaptKey {}) appDict
          { trail := some { phrase := "app*", block := 0, offset := 0, pos := 3,
                            count := 0, total := 0, exhausted := true },
            mutual_ticket := 1 } "app*" 10 true =
        some ([], { trail := some { phrase := "app*", block := 0, offset := 0, pos := 3,
                                    count := 0, total := 0, exhausted := true },
                    mutual_ticket := 1 })) := by
  refine ⟨?_, ?_, ?_⟩ <;> decide

/-! ## Character and string normalization lemmas -/

theorem char_toNat_ofNat_valid (n : Nat) (h : n.isValidChar) :
    (Char.ofNat n).toNat = n := by
  simp only [Char.ofNat, dif_pos h]
  rfl

theorem lowerChar_toNat (c : Char) :
    (lowerChar c).toNat =
      if 65 ≤ c.toNat ∧ c.toNat ≤ 90 then c.toNat + 32 else c.toNat := by
  unfold lowerChar
  by_cases h : 65 ≤ c.toNat ∧ c.toNat ≤ 90
  · rw [if_pos h, if_pos h]
    exact char_toNat_ofNat_valid _ (Or.inl (by omega))
  · rw [if_neg h, if_neg h]

theorem lowerChar_idem (c : Char) : lowerChar (lowerChar c) = lowerChar c := by
  by_cases h : 65 ≤ c.toNat ∧ c.toNat ≤ 90
  · have ht : (lowerChar c).toNat = c.toNat + 32 := by rw [lowerChar_toNat, if_pos h]
    show (if _ then _ else lowerChar c) = lowerChar c
    rw [if_neg]
    omega
  · have hc : lowerChar c = c := by unfold lowerChar; rw [if_neg h]
    rw [hc, hc]

theorem isWsChar_lowerChar (c : Char) : isWsChar (lowerChar c) = isWsChar c := by
  simp only [isWsChar, lowerChar_toNat]
  by_cases h : 65 ≤ c.toNat ∧ c.toNat ≤ 90
  · rw [if_pos h]
    simp only [decide_eq_decide]
    omega
  · rw [if_neg h]

theorem stripMem_lowerChar (c : Char) :
    ((lowerChar c).toNat ∈ stripCharCodes) ↔ (c.toNat ∈ stripCharCodes) := by
  simp only [stripCharCodes, List.mem_cons, List.not_mem_nil, or_false,
    lowerChar_toNat]
  by_cases h : 65 ≤ c.toNat ∧ c.toNat ≤ 90
  · rw [if_pos h]
    omega
  · rw [if_neg h]

theorem lowerStr_idem (s : String) : lowerStr (lowerStr s) = lowerStr s := by
  simp only [lowerStr, List.map_map]
  congr 1
  exact List.map_congr_left (fun c _ => lowerChar_idem c)

theorem stripKeyMdx_lowerStr (s : String) :
    stripKeyMdx (lowerStr s) = lowerStr (stripKeyMdx s) := by
  simp only [stripKeyMdx, lowerStr, List.filter_map]
  congr 2
  apply List.filter_congr
  intro c _
  simp only [Function.comp_apply, decide_eq_decide]
  exact not_congr (stripMem_lowerChar c)

theorem dropWhile_isWs_lower (l : List Char) :
    (l.map lowerChar).dropWhile isWsChar = (l.dropWhile isWsChar).map lowerChar := by
  rw [List.dropWhile_map]
  have hf : isWsChar ∘ lowerChar = isWsChar := funext isWsChar_lowerChar
  rw [hf]

theorem rdropWhile_isWs_lower (l : List Char) :
    List.rdropWhile isWsChar (l.map lowerChar) =
      (List.rdropWhile isWsChar l).map lowerChar := by
  simp only [List.rdropWhile, ← List.map_reverse, dropWhile_isWs_lower]

theorem jsTrim_lowerStr (s : String) :
    jsTrim (lowerStr s) = lowerStr (jsTrim s) := by
  simp only [jsTrim, lowerStr, dropWhile_isWs_lower, rdropWhile_isWs_lower]

theorem dropWhile_rdropWhile_dropWhile (l : List Char) :
    (List.rdropWhile isWsChar (l.dropWhile isWsChar)).dropWhile isWsChar =
      List.rdropWhile isWsChar (l.dropWhile isWsChar) := by
  rw [List.dropWhile_eq_self_iff]
  intro hl
  have hXne : List.rdropWhile isWsChar (l.dropWhile isWsChar) ≠ [] :=
    List.ne_nil_of_length_pos hl
  obtain ⟨t, ht⟩ := List.rdropWhile_prefix (p := isWsChar) (l := l.dropWhile isWsChar)
  have hAne : l.dropWhile isWsChar ≠ [] := by
    rw [← ht]
    intro h0
    exact hXne (List.append_eq_nil.mp h0).1
  have hhead : (List.rdropWhile isWsChar (l.dropWhile isWsChar)).get ⟨0, hl⟩ =
      (l.dropWhile isWsChar).head hAne := by
    have h2 : ((List.rdropWhile isWsChar (l.dropWhile isWsChar)) ++ t).head
        (by rw [ht]; exact hAne) = (l.dropWhile isWsChar).head hAne := by
      congr 1
    rw [← h2, List.head_append_left hXne]
    exact List.get_mk_zero hl
  rw [hhead]
  simp [List.head_dropWhile_not isWsChar l hAne]

theorem jsTrim_idem (s : String) : jsTrim (jsTrim s) = jsTrim s := by
  simp only [jsTrim]
  congr 1
  rw [dropWhile_rdropWhile_dropWhile]
  exact List.rdropWhile_idempotent _ _

theorem lowerTrim_idem (q : String) :
    lowerStr (jsTrim (lowerStr (jsTrim q))) = lowerStr (jsTrim q) := by
  rw [jsTrim_lowerStr, jsTrim_idem, lowerStr_idem]

/-! ## Record block table: `find` is a correct binary search -/

theorem buildTableGo_length (blocks : List (Nat × Nat)) :
    ∀ p0 p1, (buildTableGo p0 p1 blocks).length = blocks.length + 1 := by
  induction blocks with
  | nil => intro p0 p1; rfl
  | cons b rest ih =>
      intro p0 p1
      simp only [buildTableGo, List.length_cons, ih]

theorem buildTableGo_dOff_zero (blocks : List (Nat × Nat)) (p0 p1 : Nat) :
    dOff (buildTableGo p0 p1 blocks) 0 = p1 := by
  cases blocks <;> rfl

theorem buildTableGo_dOff_succ (blocks : List (Nat × Nat)) :
    ∀ p0 p1 i, i < blocks.length → (∀ b ∈ blocks, 0 < b.2) →
      dOff (buildTableGo p0 p1 blocks) i < dOff (buildTableGo p0 p1 blocks) (i + 1) := by
  induction blocks with
  | nil => intro p0 p1 i hi _; simp at hi
  | cons b rest ih =>
      intro p0 p1 i hi hpos
      cases i with
      | zero =>
          have h0 : dOff (buildTableGo p0 p1 (b :: rest)) 0 = p1 := by
            cases b; rfl
          have h1 : dOff (buildTableGo p0 p1 (b :: rest)) 1 =
              dOff (buildTableGo (p0 + b.1) (p1 + b.2) rest) 0 := by
            cases b; rfl
          rw [h0, h1, buildTableGo_dOff_zero]
          have := hpos b (List.mem_cons_self b rest)
          omega
      | succ i =>
          have h1 : ∀ j, dOff (buildTableGo p0 p1 (b :: rest)) (j + 1) =
              dOff (buildTableGo (p0 + b.1) (p1 + b.2) rest) j := by
            intro j; cases b; rfl
          rw [h1, h1]
          exact ih (p0 + b.1) (p1 + b.2) i (by simpa using hi)
            (fun x hx => hpos x (List.mem_cons_of_mem b hx))

theorem buildTableGo_dOff_mono (blocks : List (Nat × Nat)) (p0 p1 : Nat)
    (hpos : ∀ b ∈ blocks, 0 < b.2) :
    ∀ i j, i < j → j ≤ blocks.length →
      dOff (buildTableGo p0 p1 blocks) i < dOff (buildTableGo p0 p1 blocks) j := by
  intro i j
  induction j with
  | zero => omega
  | succ j ihj =>
      intro hij hj
      rcases Nat.lt_succ_iff_lt_or_eq.mp hij with h | h
      · exact lt_trans (ihj h (by omega))
          (buildTableGo_dOff_succ blocks p0 p1 j (by omega) hpos)
      · subst h
        exact buildTableGo_dOff_succ blocks p0 p1 i (by omega) hpos

theorem rbtFindAuxGo_spec (tbl : List (Nat × Nat)) (p : Int) (N : Nat) :
    ∀ fuel lo hi, hi - lo ≤ fuel → lo < hi → hi ≤ N →
      (dOff tbl lo : Int) ≤ p → (hi = N ∨ p < (dOff tbl hi : Int)) →
      ∃ l, rbtFindAuxGo tbl p lo hi fuel = some l ∧ lo ≤ l ∧ l + 1 ≤ hi ∧
        (dOff tbl l : Int) ≤ p ∧ (l + 1 = N ∨ p < (dOff tbl (l + 1) : Int)) := by
  intro fuel
  induction fuel with
  | zero => intro lo hi hfuel hlt _ _ _; omega
  | succ fuel ih =>
      intro lo hi hfuel hlt hhiN hlo hhi
      show ∃ l, (if hi - lo ≤ 1 then _ else _) = some l ∧ _
      by_cases hexit : hi - lo ≤ 1
      · have hhi1 : hi = lo + 1 := by omega
        rw [if_pos hexit]
        refine ⟨(lo + hi) / 2, ?_, ?_, ?_, ?_, ?_⟩
        · rw [if_pos (by omega)]
        · omega
        · omega
        · have : (lo + hi) / 2 = lo := by omega
          rw [this]; exact hlo
        · have h2 : (lo + hi) / 2 + 1 = hi := by omega
          rw [h2]; exact hhi
      · rw [if_neg hexit]
        have hmid : lo < (lo + hi) / 2 ∧ (lo + hi) / 2 < hi := by omega
        by_cases hbr : p < (dOff tbl ((lo + hi) / 2) : Int)
        · rw [if_pos hbr]
          obtain ⟨l, h1, h2, h3, h4, h5⟩ := ih lo ((lo + hi) / 2) (by omega)
            hmid.1 (by omega) hlo (Or.inr hbr)
          exact ⟨l, h1, h2, by omega, h4, h5⟩
        · rw [if_neg hbr]
          push_neg at hbr
          obtain ⟨l, h1, h2, h3, h4, h5⟩ := ih ((lo + hi) / 2) hi (by omega)
            hmid.2 hhiN hbr hhi
          exact ⟨l, h1, by omega, h3, h4, h5⟩

/-- Claim C7 — for a record block table built from `N ≥ 1` record blocks with
positive decompressed sizes plus the sentinel pair, `find(p)` returns the
descriptor of the block at the largest index `i` with `decomp_offset[i] ≤ p`
(sizes taken from the next pair), and returns `undefined` exactly when `p` is
negative or greater than the last (sentinel) decompressed offset. -/
theorem C7_rbtFind_binary_search (blocks : List (Nat × Nat)) (p0 : Nat)
    (hne : blocks ≠ []) (hpos : ∀ b ∈ blocks, 0 < b.2) (p : Int) :
    rbtFind (buildTable p0 blocks) p =
      if p < 0 ∨ p > (dOff (buildTable p0 blocks) blocks.length : Int) then none
      else
        rbtDescAt (buildTable p0 blocks)
          (Nat.findGreatest
            (fun i => (dOff (buildTable p0 blocks) i : Int) ≤ p)
            (blocks.length - 1)) := by
  have hN : 0 < blocks.length := List.length_pos.mpr hne
  have hlen : (buildTable p0 blocks).length = blocks.length + 1 :=
    buildTableGo_length blocks p0 0
  have hhi : (buildTable p0 blocks).length - 1 = blocks.length := by omega
  have hmono : ∀ i j, i < j → j ≤ blocks.length →
      dOff (buildTable p0 blocks) i < dOff (buildTable p0 blocks) j :=
    buildTableGo_dOff_mono blocks p0 0 hpos
  have h0 : dOff (buildTable p0 blocks) 0 = 0 := buildTableGo_dOff_zero blocks p0 0
  unfold rbtFind
  rw [hhi]
  by_cases hout : p > (dOff (buildTable p0 blocks) blocks.length : Int) ∨ p < 0
  · rw [if_pos hout, if_pos (by tauto)]
  · rw [if_neg hout]
    push_neg at hout
    rw [if_neg (by push_neg; exact ⟨hout.2, hout.1⟩)]
    unfold rbtFindAux
    obtain ⟨l, h1, h2, h3, h4, h5⟩ :=
      rbtFindAuxGo_spec (buildTable p0 blocks) p blocks.length
        (blocks.length - 0) 0 blocks.length (by omega) hN (le_refl _)
        (by rw [h0]; exact hout.2) (Or.inl rfl)
    rw [h1]
    have hfg : Nat.findGreatest
        (fun i => (dOff (buildTable p0 blocks) i : Int) ≤ p) (blocks.length - 1) = l := by
      rw [Nat.findGreatest_eq_iff]
      refine ⟨by omega, fun _ => h4, ?_⟩
      intro n hln hnN hPn
      rcases h5 with h5 | h5
      · omega
      · have hle : dOff (buildTable p0 blocks) (l + 1) ≤ dOff (buildTable p0 blocks) n := by
          rcases Nat.lt_or_ge (l + 1) n with h | h
          · exact le_of_lt (hmono (l + 1) n h (by omega))
          · have : l + 1 = n := by omega
            rw [this]
        have hn : (dOff (buildTable p0 blocks) n : Int) ≤ p := hPn
        have h6 : (dOff (buildTable p0 blocks) (l + 1) : Int) ≤ p := by
          calc (dOff (buildTable p0 blocks) (l + 1) : Int)
              ≤ (dOff (buildTable p0 blocks) n : Int) := by exact_mod_cast hle
            _ ≤ p := hn
        omega
    rw [hfg]

/-- Witness for C7: table from blocks `[(10,5), (7,8)]` at base 100; position
6 falls in block 1, whose descriptor is assembled from pairs 1 and 2. -/
theorem C7_rbtFind_binary_search_witness :
    rbtFind (buildTable 100 [(10, 5), (7, 8)]) 6 =
      some { block_no := 1, comp_offset := 110, comp_size := 7,
             decomp_offset := 5, decomp_size := 8 } := by
  rw [C7_rbtFind_binary_search [(10, 5), (7, 8)] 100 (by decide)
    (by decide) 6]
  decide

/-- Claim C10 — a plain-string `mdx` query is trimmed and lowercased before the
two-tier search begins even when the header is case-sensitive: with
`KeyCaseSensitive` true and `StripKey` unset/false, `adapt_key` is the
identity, and `getWordList(q)` coincides with `getWordList` of the lowercased
trimmed query — stored keywords are compared against the lowercased form, not
the query as typed. -/
theorem C10_mdx_lowercases_query (attrs : HeaderAttrs)
    (hcs : jsIsTrue attrs.KeyCaseSensitive = true)
    (hsk : jsIsTrue attrs.StripKey = false) :
    getAdaptKey attrs = (fun key => key) ∧
      ∀ (d : Dict) (q : String) (off : Option Nat),
        mdx (getAdaptKey attrs) d q off =
          mdx (getAdaptKey attrs) d (lowerStr (jsTrim q)) off := by
  constructor
  · unfold getAdaptKey
    rw [hcs]
    simp only [if_true, hsk]
    rfl
  · intro d q off
    unfold mdx
    rw [lowerTrim_idem]

/-- Witness for C10 with `KeyCaseSensitive="yes"`: on a one-block dictionary
storing `"Cat"` and `"cat"`, querying `"Cat"` behaves exactly like querying
`"cat"`, and `adapt_key` is the identity. -/
theorem C10_mdx_lowercases_query_witness :
    getAdaptKey { KeyCaseSensitive := "yes" } = (fun key => key) ∧
      mdx (getAdaptKey { KeyCaseSensitive := "yes" })
          ⟨[{ num_entries := 2, first_word := "Cat", last_word := "cat", index := 0,
              entries := [⟨"Cat", 0⟩, ⟨"cat", 9⟩] }]⟩ "Cat" none =
        mdx (getAdaptKey { KeyCaseSensitive := "yes" })
          ⟨[{ num_entries := 2, first_word := "Cat", last_word := "cat", index := 0,
              entries := [⟨"Cat", 0⟩, ⟨"cat", 9⟩] }]⟩ (lowerStr (jsTrim "Cat")) none := by
  obtain ⟨h1, h2⟩ := C10_mdx_lowercases_query { KeyCaseSensitive := "yes" } rfl rfl
  exact ⟨h1, h2 _ "Cat" none⟩

/-! ## The two-tier search: order bridge lemmas

`jsLtCh` agrees with the lexicographic order on `List Char` (Mathlib's
`List.Lex` linear order), which supplies totality, transitivity and
antisymmetry for the search proofs. -/

theorem jsLtCh_iff (x y : List Char) : jsLtCh x y = true ↔ x < y := by
  induction x generalizing y with
  | nil => cases y <;> simp [jsLtCh, List.LT', List.Lex.nil]
  | cons a as ih =>
    cases y with
    | nil =>
        simp only [jsLtCh, List.LT']
        simp
    | cons b bs =>
        show (if a < b then true else if b < a then false else jsLtCh as bs) = true ↔
          List.Lex (· < ·) (a :: as) (b :: bs)
        rcases lt_trichotomy a b with h | h | h
        · simp [h]; exact List.Lex.rel h
        · subst h
          simp [lt_irrefl, ih]
          constructor
          · exact List.Lex.cons
          · intro hl
            exact (List.Lex.cons_iff).mp hl
        · simp [not_lt_of_gt h, h]
          intro hl
          cases hl with
          | cons h2 => exact lt_irrefl _ h
          | rel h2 => exact absurd h2 (not_lt_of_gt h)

theorem jsLtCh_ff (x y : List Char) : jsLtCh x y = false ↔ y ≤ x := by
  rw [← not_lt, ← jsLtCh_iff]
  simp

theorem jsLt_iff (a b : String) : jsLt a b = true ↔ a.data < b.data :=
  jsLtCh_iff a.data b.data

theorem jsLt_ff (a b : String) : jsLt a b = false ↔ b.data ≤ a.data :=
  jsLtCh_ff a.data b.data

theorem jsGt_iff (a b : String) : jsGt a b = true ↔ b.data < a.data :=
  jsLtCh_iff b.data a.data

theorem jsGt_ff (a b : String) : jsGt a b = false ↔ a.data ≤ b.data :=
  jsLtCh_ff b.data a.data

theorem jsLe_iff (a b : String) : jsLe a b = true ↔ a.data ≤ b.data := by
  unfold jsLe
  rw [Bool.not_eq_eq_eq_not, Bool.not_true, jsLtCh_ff]

theorem jsLe_ff (a b : String) : jsLe a b = false ↔ b.data < a.data := by
  unfold jsLe
  rw [Bool.not_eq_eq_eq_not, Bool.not_false, jsLtCh_iff]

theorem strData_inj {a b : String} (h : a.data = b.data) : a = b := by
  cases a; cases b; exact congrArg String.mk h

/-- Claim C8, counterexample — on a *case-sensitive* dictionary storing `"A"`
and `"a"` (adapt_key is the identity), the query `"A"` is a stored keyword,
yet `getWordList("A")` returns `[{a, 4}]`: the first element's normal form
`"a"` differs from `adapt_key("A") = "A"`, because `mdx` lowercases the query
before the search. -/
theorem C8_counterexample_case_sensitive :
    (⟨"A", 0⟩ : KeyEntry) ∈ csDict.allEntries ∧
      WellFormed (getAdaptKey { KeyCaseSensitive := "yes" }) csDict ∧
      mdx (getAdaptKey { KeyCaseSensitive := "yes" }) csDict "A" none =
        some [⟨"a", 4⟩] ∧
      getAdaptKey { KeyCaseSensitive := "yes" } "a" ≠
        getAdaptKey { KeyCaseSensitive := "yes" } "A" := by
  refine ⟨by decide, ?_, by decide, by decide⟩
  unfold WellFormed
  refine ⟨by decide, by decide, by decide, by decide⟩

/-! ## Sorted-list helpers (through a measure `f` into `List Char`) -/

theorem pairwise_get_le {α : Type} (f : α → List Char) (l : List α)
    (hs : List.Pairwise (fun a b => f a ≤ f b) l)
    (i j : Nat) (hij : i ≤ j) (hj : j < l.length) :
    f (l.get ⟨i, lt_of_le_of_lt hij hj⟩) ≤ f (l.get ⟨j, hj⟩) := by
  rcases Nat.lt_or_ge i j with h | h
  · exact List.pairwise_iff_get.mp hs ⟨i, by omega⟩ ⟨j, hj⟩ h
  · have : i = j := by omega
    subst this
    exact le_refl _

theorem pairwise_mem_le_getLast {α : Type} (f : α → List Char) (l : List α)
    (hs : List.Pairwise (fun a b => f a ≤ f b) l) (hne : l ≠ []) :
    ∀ a ∈ l, f a ≤ f (l.getLast hne) := by
  intro a ha
  obtain ⟨⟨i, hi⟩, rfl⟩ := List.mem_iff_get.mp ha
  rw [List.getLast_eq_getElem]
  have h := pairwise_get_le f l hs i (l.length - 1) (by omega) (by omega)
  simpa using h

theorem mem_take_le_pivot {α : Type} (f : α → List Char) (l : List α)
    (hs : List.Pairwise (fun a b => f a ≤ f b) l) (n pivot : Nat)
    (hp : pivot < l.length) (hnp : n ≤ pivot + 1) :
    ∀ a ∈ l.take n, f a ≤ f (l.get ⟨pivot, hp⟩) := by
  intro a ha
  obtain ⟨⟨i, hi⟩, rfl⟩ := List.mem_iff_get.mp ha
  have hil : i < n := by
    have := hi
    simp only [List.length_take] at this
    omega
  have hig : i < l.length := by
    have := hi
    simp only [List.length_take] at this
    omega
  have hget : (l.take n).get ⟨i, hi⟩ = l.get ⟨i, hig⟩ := by
    simp [List.getElem_take]
  rw [hget]
  exact pairwise_get_le f l hs i pivot (by omega) hp

/-! ## `reduce` locates the first candidate block -/

theorem reduceGo_spec (ak : String → String) (phrase : String) :
    ∀ (fuel : Nat) (arr : List KeyIndexEntry), arr.length ≤ fuel → arr ≠ [] →
      List.Pairwise (fun a b => (ak a.last_word).data ≤ (ak b.last_word).data) arr →
      ∃ pre b post, reduceGo ak phrase arr fuel = some b ∧
        arr = pre ++ b :: post ∧
        (∀ a ∈ pre, (ak a.last_word).data < phrase.data) ∧
        (phrase.data ≤ (ak b.last_word).data ∨ post = []) := by
  intro fuel
  induction fuel with
  | zero =>
      intro arr hfuel hne _
      have := List.length_pos.mpr hne
      omega
  | succ fuel ih =>
      intro arr hfuel hne hsort
      show ∃ pre b post, (if h : arr.length > 1 then _ else arr.head?) = some b ∧ _
      by_cases h : arr.length > 1
      · rw [dif_pos h]
        have hlen1 : 1 ≤ arr.length / 2 := by omega
        have hpiv : arr.length / 2 - 1 < arr.length := by omega
        by_cases hbr :
            jsGt phrase (ak (arr.get ⟨arr.length / 2 - 1, by omega⟩).last_word) = true
        · rw [if_pos hbr]
          have hdlen : (arr.drop (arr.length / 2)).length = arr.length - arr.length / 2 := by
            simp
          obtain ⟨pre', b, post', h1, h2, h3, h4⟩ :=
            ih (arr.drop (arr.length / 2)) (by omega)
              (by
                intro h0
                rw [h0] at hdlen
                simp at hdlen
                omega)
              (hsort.sublist (List.drop_sublist _ _))
          refine ⟨arr.take (arr.length / 2) ++ pre', b, post', h1, ?_, ?_, h4⟩
          · rw [List.append_assoc, ← h2, List.take_append_drop]
          · intro a ha
            rcases List.mem_append.mp ha with ha | ha
            · have hle := mem_take_le_pivot (fun x => (ak x.last_word).data) arr hsort
                (arr.length / 2) (arr.length / 2 - 1) hpiv (by omega) a ha
              exact lt_of_le_of_lt hle (jsGt_iff _ _ |>.mp hbr)
            · exact h3 a ha
        · rw [if_neg hbr]
          have htlen : (arr.take (arr.length / 2)).length = arr.length / 2 := by
            simp
            omega
          obtain ⟨pre, b, post', h1, h2, h3, h4⟩ :=
            ih (arr.take (arr.length / 2)) (by omega)
              (by
                intro h0
                rw [h0] at htlen
                simp at htlen
                omega)
              (hsort.sublist (List.take_sublist _ _))
          refine ⟨pre, b, post' ++ arr.drop (arr.length / 2), h1, ?_, h3, ?_⟩
          · conv_lhs => rw [← List.take_append_drop (arr.length / 2) arr]
            rw [h2]
            simp
          · rcases h4 with h4 | h4
            · exact Or.inl h4
            · left
              subst h4
              have hlenpre : arr.length / 2 = pre.length + 1 := by
                have hl2 := congrArg List.length h2
                simp only [List.length_take, List.length_append, List.length_cons,
                  List.length_nil] at hl2
                omega
              have hx : pre.length < (arr.take (arr.length / 2)).length := by
                rw [htlen]; omega
              have h5 : (arr.take (arr.length / 2)).get ⟨pre.length, hx⟩ = b := by
                rw [List.get_of_eq h2 ⟨pre.length, hx⟩]
                simp
              have hb : b = arr.get ⟨arr.length / 2 - 1, by omega⟩ := by
                rw [← h5]
                simp only [List.get_eq_getElem, List.getElem_take]
                congr 1
                omega
              rw [hb]
              exact (jsGt_ff _ _).mp (by simpa using hbr)
      · rw [dif_neg h]
        have h1 : arr.length = 1 := by
          have := List.length_pos.mpr hne
          omega
        obtain ⟨b, rfl⟩ := List.length_eq_one.mp h1
        exact ⟨[], b, [], rfl, rfl, by simp, Or.inr rfl⟩

/-! ## `shrink` locates the split position inside a block -/

theorem shrinkGo_spec (ak : String → String) (phrase : String) :
    ∀ (fuel : Nat) (arr : List KeyEntry) (pos : Nat), arr.length ≤ fuel → arr ≠ [] →
      List.Pairwise (fun a b => (ak a.word).data ≤ (ak b.word).data) arr →
      ∃ k, shrinkGo ak phrase arr pos fuel = pos + k ∧ k ≤ arr.length ∧
        (∀ e ∈ arr.take k, (ak e.word).data ≤ phrase.data) ∧
        (∀ (hk : k < arr.length), phrase.data ≤ (ak (arr.get ⟨k, hk⟩).word).data) := by
  intro fuel
  induction fuel with
  | zero =>
      intro arr pos hfuel hne _
      have := List.length_pos.mpr hne
      omega
  | succ fuel ih =>
      intro arr pos hfuel hne hsort
      show ∃ k, (if h : arr.length > 1 then _ else _) = pos + k ∧ _
      by_cases h : arr.length > 1
      · rw [dif_pos h]
        have hlen1 : 1 ≤ arr.length / 2 := by omega
        have hpiv : arr.length / 2 < arr.length := by omega
        by_cases hbr :
            jsLt phrase (ak (arr.get ⟨arr.length / 2, by omega⟩).word) = true
        · rw [if_pos hbr]
          have htlen : (arr.take (arr.length / 2)).length = arr.length / 2 := by
            simp; omega
          obtain ⟨k, h1, h2, h3, h4⟩ :=
            ih (arr.take (arr.length / 2)) pos (by omega)
              (by
                intro h0
                rw [h0] at htlen
                simp at htlen
                omega)
              (hsort.sublist (List.take_sublist _ _))
          refine ⟨k, h1, by omega, ?_, ?_⟩
          · intro e he
            apply h3
            have hkk : arr.take k = (arr.take (arr.length / 2)).take k := by
              rw [List.take_take]
              congr 1
              omega
            rw [← hkk]
            exact he
          · intro hk
            rcases Nat.lt_or_ge k (arr.length / 2) with hlt | hge
            · have h5 := h4 (by omega)
              have h6 : (arr.take (arr.length / 2)).get ⟨k, by omega⟩ =
                  arr.get ⟨k, hk⟩ := by
                simp [List.getElem_take]
              rw [← h6]
              exact h5
            · have hkeq : k = arr.length / 2 := by omega
              subst hkeq
              exact le_of_lt ((jsLt_iff _ _).mp hbr)
        · rw [if_neg hbr]
          have hdlen : (arr.drop (arr.length / 2)).length =
              arr.length - arr.length / 2 := by simp
          obtain ⟨k, h1, h2, h3, h4⟩ :=
            ih (arr.drop (arr.length / 2)) (pos + arr.length / 2) (by omega)
              (by
                intro h0
                rw [h0] at hdlen
                simp at hdlen
                omega)
              (hsort.sublist (List.drop_sublist _ _))
          refine ⟨arr.length / 2 + k, by rw [h1]; omega, by omega, ?_, ?_⟩
          · intro e he
            rw [List.take_add] at he
            rcases List.mem_append.mp he with he | he
            · have hle := mem_take_le_pivot (fun x => (ak x.word).data) arr hsort
                (arr.length / 2) (arr.length / 2) hpiv (by omega) e he
              exact le_trans hle ((jsLt_ff _ _).mp (by simpa using hbr))
            · exact h3 e he
          · intro hk
            have hkd : k < (arr.drop (arr.length / 2)).length := by omega
            have h5 := h4 hkd
            have h6 : (arr.drop (arr.length / 2)).get ⟨k, hkd⟩ =
                arr.get ⟨arr.length / 2 + k, hk⟩ := by
              simp [List.getElem_drop]
            rw [← h6]
            exact h5
      · rw [dif_neg h]
        have h1 : arr.length = 1 := by
          have := List.length_pos.mpr hne
          omega
        obtain ⟨e, rfl⟩ := List.length_eq_one.mp h1
        show ∃ k, (match ([e] : List KeyEntry).head? with
          | some e0 => pos + (if jsLe phrase (ak e0.word) then 0 else 1)
          | none => pos) = pos + k ∧ _
        by_cases hle : jsLe phrase (ak e.word) = true
        · refine ⟨0, ?_, by omega, by simp, ?_⟩
          · show pos + (if jsLe phrase (ak e.word) then 0 else 1) = pos + 0
            rw [if_pos hle]
          · intro hk
            show phrase.data ≤ (ak e.word).data
            exact (jsLe_iff _ _).mp hle
        · refine ⟨1, ?_, by omega, ?_, ?_⟩
          · show pos + (if jsLe phrase (ak e.word) then 0 else 1) = pos + 1
            rw [if_neg (by simpa using hle)]
          · intro x hx
            simp at hx
            subst hx
            exact le_of_lt ((jsLe_ff _ _).mp (by simpa using hle))
          · intro hk
            omega

/-! ## The look-back loops -/

theorem walkBackLoop_stop (ak : String → String) (kidx : List KeyIndexEntry)
    (cur : KeyIndexEntry)
    (h : 0 < cur.index → ∀ prev, kidx.get? (cur.index - 1) = some prev →
      ak prev.last_word ≠ ak cur.last_word) :
    walkBackLoop ak kidx cur cur.index = cur := by
  cases hc : cur.index with
  | zero => rfl
  | succ i =>
      show walkBackLoop ak kidx cur (i + 1) = cur
      unfold walkBackLoop
      cases hg : kidx.get? i with
      | none => rfl
      | some prev =>
          have hne := h (by omega) prev (by rw [hc]; simpa using hg)
          simp [hne]

theorem seekBackLoop_spec (ak : String → String) (list : List KeyEntry)
    (target : String) :
    ∀ n, n ≤ list.length →
      ((∃ e, list.get? n = some e ∧ ak e.word = target) ∨
        (0 < n ∧ ∃ e, list.get? (n - 1) = some e ∧ ak e.word = target)) →
      ∃ e, list.get? (seekBackLoop ak list target n) = some e ∧ ak e.word = target := by
  intro n
  induction n with
  | zero =>
      intro _ hyp
      rcases hyp with ⟨e, he, ht⟩ | ⟨h0, _⟩
      · exact ⟨e, he, ht⟩
      · omega
  | succ i ih =>
      intro hn hyp
      show ∃ e, list.get? (match list.get? i with
        | none => i + 1
        | some e => if ak e.word ≠ target then i + 1 else seekBackLoop ak list target i) =
          some e ∧ ak e.word = target
      cases hg : list.get? i with
      | none =>
          have : i < list.length := by omega
          rw [List.get?_eq_getElem?, List.getElem?_eq_getElem this] at hg
          exact absurd hg (by simp)
      | some e0 =>
          show ∃ e, list.get? (if ak e0.word ≠ target then i + 1
            else seekBackLoop ak list target i) = some e ∧ ak e.word = target
          by_cases heq : ak e0.word = target
          · rw [if_neg (by simpa using heq)]
            exact ih (by omega) (Or.inl ⟨e0, hg, heq⟩)
          · rw [if_pos (by simpa using heq)]
            rcases hyp with ⟨e, he, ht⟩ | ⟨_, e, he, ht⟩
            · exact ⟨e, he, ht⟩
            · have : e = e0 := by
                have h2 : list.get? i = some e := by simpa using he
                rw [h2] at hg
                exact Option.some.inj hg
              subst this
              exact absurd ht heq

theorem get_mem_take {α : Type} (l : List α) (j k : Nat) (hj : j < l.length)
    (hjk : j < k) : l.get ⟨j, hj⟩ ∈ l.take k := by
  have hlen : j < (l.take k).length := by simp; omega
  have heq : (l.take k).get ⟨j, hlen⟩ = l.get ⟨j, hj⟩ := by
    simp [List.getElem_take]
  rw [← heq]
  exact List.get_mem _ _ _

/-- Unfolding `seekVanguard` when `reduce` hits a block whose adapted
`last_word` is ≥ the phrase and the cross-block look-back is a no-op. -/
theorem seekVanguard_eq (ak : String → String) (d : Dict) (phrase0 : String)
    (bstar : KeyIndexEntry)
    (hred : reduce ak d.keyIndex (ak phrase0) = some bstar)
    (hle : jsLe (ak phrase0) (ak bstar.last_word) = true)
    (hwb : walkBackLoop ak d.keyIndex bstar bstar.index = bstar) :
    seekVanguard ak d phrase0 = some (bstar,
      min (seekBackLoop ak bstar.entries (ak (ak phrase0))
            (shrink ak bstar.entries 0 (ak phrase0)))
          (bstar.entries.length - 1),
      bstar.entries) := by
  unfold seekVanguard
  simp only [hred, hle, if_true, hwb, loadKeys]

/-- The heart of the amended C8: on a well-formed dictionary, when a stored
keyword adapts equal to the (adapted) phrase, `seekVanguard` lands on an
entry with that normal form. -/
theorem seekVanguard_finds_match (ak : String → String) (d : Dict)
    (hwf : WellFormed ak d) (phrase0 : String)
    (hidem : ak (ak phrase0) = ak phrase0)
    (hstored : ∃ e ∈ d.allEntries, ak e.word = ak phrase0) :
    ∃ kdx idx list, seekVanguard ak d phrase0 = some (kdx, idx, list) ∧
      ∃ e, list.get? idx = some e ∧ ak e.word = ak phrase0 := by
  obtain ⟨hne, hidx, hblk, hsort0⟩ := hwf
  have hsort : List.Pairwise (fun a b => (ak a.word).data ≤ (ak b.word).data)
      d.allEntries := hsort0.imp (fun h => (jsLe_iff _ _).mp h)
  have hflat := List.pairwise_flatten.mp (by
    simpa only [Dict.allEntries] using hsort)
  obtain ⟨hin0, hcross0⟩ := hflat
  have hin : ∀ b ∈ d.keyIndex,
      List.Pairwise (fun a c => (ak a.word).data ≤ (ak c.word).data) b.entries := by
    intro b hb
    exact hin0 _ (List.mem_map_of_mem _ hb)
  have hcross : List.Pairwise (fun b1 b2 => ∀ x ∈ b1.entries, ∀ y ∈ b2.entries,
      (ak x.word).data ≤ (ak y.word).data) d.keyIndex :=
    (List.pairwise_map).mp hcross0
  have hlast : ∀ b ∈ d.keyIndex, ∃ e, e ∈ b.entries ∧ e.word = b.last_word ∧
      ∀ x ∈ b.entries, (ak x.word).data ≤ (ak e.word).data := by
    intro b hb
    obtain ⟨hbne, hgl⟩ := hblk b hb
    obtain ⟨e, hgl2, hw⟩ : ∃ e, b.entries.getLast? = some e ∧ e.word = b.last_word := by
      cases hg : b.entries.getLast? with
      | none => rw [hg] at hgl; simp at hgl
      | some e => rw [hg] at hgl; exact ⟨e, rfl, by simpa using hgl⟩
    have hge : b.entries.getLast hbne = e := by
      rw [List.getLast?_eq_getLast _ hbne] at hgl2
      exact Option.some.inj hgl2
    refine ⟨e, hge ▸ List.getLast_mem hbne, hw, ?_⟩
    intro x hx
    have := pairwise_mem_le_getLast (fun y => (ak y.word).data) b.entries
      (hin b hb) hbne x hx
    rwa [hge] at this
  have hbs : List.Pairwise (fun b1 b2 =>
      (ak b1.last_word).data ≤ (ak b2.last_word).data) d.keyIndex := by
    refine List.Pairwise.imp_of_mem ?_ hcross
    intro b1 b2 hb1 hb2 hr
    obtain ⟨e1, he1m, he1w, _⟩ := hlast b1 hb1
    obtain ⟨e2, he2m, he2w, _⟩ := hlast b2 hb2
    have := hr e1 he1m e2 he2m
    rwa [he1w, he2w] at this
  obtain ⟨pre, bstar, post, hred, hdecomp, hpre, hb3⟩ :=
    reduceGo_spec ak (ak phrase0) d.keyIndex.length d.keyIndex (le_refl _) hne hbs
  obtain ⟨e0, he0mem, he0ak⟩ := hstored
  obtain ⟨bm, hbmmem, he0in⟩ : ∃ bm, bm ∈ d.keyIndex ∧ e0 ∈ bm.entries := by
    obtain ⟨l, hl, hel⟩ := List.mem_flatten.mp (by
      simpa only [Dict.allEntries] using he0mem)
    obtain ⟨bm, hbm, rfl⟩ := List.mem_map.mp hl
    exact ⟨bm, hbm, hel⟩
  have hbstar_mem : bstar ∈ d.keyIndex := by
    rw [hdecomp]; simp
  have hpreblocks : ∀ a ∈ pre, ∀ x ∈ a.entries,
      (ak x.word).data < (ak phrase0).data := by
    intro a hapre x hx
    obtain ⟨ea, heam, heaw, hmax⟩ := hlast a
      (by rw [hdecomp]; exact List.mem_append_left _ hapre)
    have h1 := hmax x hx
    rw [heaw] at h1
    exact lt_of_le_of_lt h1 (hpre a hapre)
  have he0d : (ak e0.word).data = (ak phrase0).data := congrArg String.data he0ak
  have hltB : (ak phrase0).data ≤ (ak bstar.last_word).data := by
    rcases hb3 with h | hpost
    · exact h
    · by_contra hcon
      push_neg at hcon
      have hbm2 : bm ∈ pre ∨ bm = bstar := by
        rw [hdecomp, hpost] at hbmmem
        rcases List.mem_append.mp hbmmem with h | h
        · exact Or.inl h
        · right; simpa using h
      have hlt : (ak e0.word).data < (ak phrase0).data := by
        rcases hbm2 with h | h
        · exact hpreblocks bm h e0 he0in
        · subst h
          obtain ⟨ea, heam, heaw, hmax⟩ := hlast bm hbstar_mem
          have h2 := hmax e0 he0in
          rw [heaw] at h2
          exact lt_of_le_of_lt h2 hcon
      rw [he0d] at hlt
      exact lt_irrefl _ hlt
  have hmatchB : ∃ e, e ∈ bstar.entries ∧ ak e.word = ak phrase0 := by
    have hbm2 : bm ∈ pre ∨ bm = bstar ∨ bm ∈ post := by
      rw [hdecomp] at hbmmem
      rcases List.mem_append.mp hbmmem with h | h
      · exact Or.inl h
      · rcases List.mem_cons.mp h with h | h
        · exact Or.inr (Or.inl h)
        · exact Or.inr (Or.inr h)
    rcases hbm2 with h | h | h
    · exfalso
      have := hpreblocks bm h e0 he0in
      rw [he0d] at this
      exact lt_irrefl _ this
    · subst h; exact ⟨e0, he0in, he0ak⟩
    · obtain ⟨ls, hlsm, hlsw, _⟩ := hlast bstar hbstar_mem
      refine ⟨ls, hlsm, ?_⟩
      have hcross2 := hcross
      rw [hdecomp] at hcross2
      have h2 := (List.pairwise_append.mp hcross2).2.1
      have hrel := (List.pairwise_cons.mp h2).1 bm h
      have hle1 : (ak ls.word).data ≤ (ak e0.word).data := hrel ls hlsm e0 he0in
      rw [he0d] at hle1
      have hle2 : (ak phrase0).data ≤ (ak ls.word).data := by
        rw [hlsw]; exact hltB
      exact strData_inj (le_antisymm hle1 hle2)
  have hjsle : jsLe (ak phrase0) (ak bstar.last_word) = true := (jsLe_iff _ _).mpr hltB
  have hplen : pre.length < d.keyIndex.length := by
    rw [hdecomp]; simp
  have hget_pre : d.keyIndex.get ⟨pre.length, hplen⟩ = bstar := by
    rw [List.get_of_eq hdecomp ⟨pre.length, hplen⟩]
    simp only [List.get_eq_getElem]
    rw [List.getElem_append_right (le_refl pre.length)]
    simp
  have hbidx : bstar.index = pre.length := by
    have := hidx pre.length hplen
    rwa [hget_pre] at this
  have hwb : walkBackLoop ak d.keyIndex bstar bstar.index = bstar := by
    apply walkBackLoop_stop
    intro hpos prev hprev
    rw [hbidx] at hpos hprev
    have hidxlt : pre.length - 1 < pre.length := by omega
    have hgp : d.keyIndex.get? (pre.length - 1) = pre.get? (pre.length - 1) := by
      rw [hdecomp, List.get?_eq_getElem?, List.get?_eq_getElem?]
      exact List.getElem?_append_left (by omega)
    rw [hgp] at hprev
    have hprev_pre : prev ∈ pre := by
      obtain ⟨hlt2, hget2⟩ := List.get?_eq_some.mp hprev
      rw [← hget2]
      exact List.get_mem _ _ _
    intro heqw
    have hd := congrArg String.data heqw
    have h1 : (ak prev.last_word).data < (ak phrase0).data := by
      obtain ⟨ea, heam, heaw, hmax⟩ := hlast prev
        (by rw [hdecomp]; exact List.mem_append_left _ hprev_pre)
      exact hpre prev hprev_pre
    rw [hd] at h1
    exact absurd hltB (not_le_of_lt h1)
  obtain ⟨hbne, _⟩ := hblk bstar hbstar_mem
  have hsortB := hin bstar hbstar_mem
  obtain ⟨k, hk1, hk2, hk3, hk4⟩ := shrinkGo_spec ak (ak phrase0)
    bstar.entries.length bstar.entries 0 (le_refl _) hbne hsortB
  obtain ⟨em, hemm, hemak⟩ := hmatchB
  obtain ⟨⟨m, hm⟩, hem⟩ := List.mem_iff_get.mp hemm
  have hemd : (ak (bstar.entries.get ⟨m, hm⟩).word).data = (ak phrase0).data := by
    rw [hem]; exact congrArg String.data hemak
  have hyp : (∃ e, bstar.entries.get? k = some e ∧ ak e.word = ak phrase0) ∨
      (0 < k ∧ ∃ e, bstar.entries.get? (k - 1) = some e ∧ ak e.word = ak phrase0) := by
    have hk_at : ∀ (j : Nat) (hj : j < bstar.entries.length), j < k →
        m ≤ j → ak (bstar.entries.get ⟨j, hj⟩).word = ak phrase0 := by
      intro j hj hjk hmj
      have hup : (ak (bstar.entries.get ⟨j, hj⟩).word).data ≤ (ak phrase0).data := by
        apply hk3
        exact get_mem_take bstar.entries j k hj hjk
      have hdown : (ak phrase0).data ≤ (ak (bstar.entries.get ⟨j, hj⟩).word).data := by
        rw [← hemd]
        exact pairwise_get_le (fun e => (ak e.word).data) bstar.entries hsortB m j hmj hj
      exact strData_inj (le_antisymm hup hdown)
    rcases Nat.lt_or_ge k bstar.entries.length with hklt | hkge
    · by_cases hk_is : ak (bstar.entries.get ⟨k, hklt⟩).word = ak phrase0
      · left
        exact ⟨_, by simp [List.get?_eq_getElem?, List.getElem?_eq_getElem hklt], hk_is⟩
      · have hstrict : (ak phrase0).data < (ak (bstar.entries.get ⟨k, hklt⟩).word).data := by
          rcases lt_or_eq_of_le (hk4 hklt) with h | h
          · exact h
          · exact absurd (strData_inj h.symm) hk_is
        have hmlt : m < k := by
          by_contra hge2
          push_neg at hge2
          have h5 := pairwise_get_le (fun e => (ak e.word).data) bstar.entries
            hsortB k m hge2 hm
          rw [hemd] at h5
          exact absurd h5 (not_le_of_lt hstrict)
        right
        refine ⟨by omega, bstar.entries.get ⟨k - 1, by omega⟩,
          by simp [List.get?_eq_getElem?,
            List.getElem?_eq_getElem (show k - 1 < bstar.entries.length by omega)],
          hk_at (k - 1) (by omega) (by omega) (by omega)⟩
    · have hmlt : m < k := by omega
      right
      refine ⟨by omega, bstar.entries.get ⟨k - 1, by omega⟩,
        by simp [List.get?_eq_getElem?,
          List.getElem?_eq_getElem (show k - 1 < bstar.entries.length by omega)],
        hk_at (k - 1) (by omega) (by omega) (by omega)⟩
  have hk1s : shrink ak bstar.entries 0 (ak phrase0) = k := by
    show shrinkGo ak (ak phrase0) bstar.entries 0 bstar.entries.length = k
    rw [hk1]
    omega
  obtain ⟨ef, hef, hefak⟩ := seekBackLoop_spec ak bstar.entries (ak phrase0) k hk2 hyp
  have hflt : seekBackLoop ak bstar.entries (ak phrase0) k < bstar.entries.length := by
    obtain ⟨hlt2, _⟩ := List.get?_eq_some.mp hef
    exact hlt2
  have hlen_pos : 0 < bstar.entries.length := List.length_pos.mpr hbne
  have hmin : min (seekBackLoop ak bstar.entries (ak phrase0) k)
      (bstar.entries.length - 1) = seekBackLoop ak bstar.entries (ak phrase0) k := by
    omega
  refine ⟨bstar, seekBackLoop ak bstar.entries (ak phrase0) k, bstar.entries,
    ?_, ef, hef, hefak⟩
  rw [seekVanguard_eq ak d phrase0 bstar hred hjsle hwb, hidem, hk1s, hmin]

/-! ## Normalization is idempotent for case-insensitive headers -/

theorem stripKeyMdx_idem (s : String) :
    stripKeyMdx (stripKeyMdx s) = stripKeyMdx s := by
  simp only [stripKeyMdx, List.filter_filter]
  congr 1
  apply List.filter_congr
  intro c _
  simp

theorem getAdaptKey_ci (attrs : HeaderAttrs)
    (hcs : jsIsTrue attrs.KeyCaseSensitive = false) :
    getAdaptKey attrs = fun key =>
      if jsIsTrue (jsOrStr attrs.StripKey "yes") then stripKeyMdx (lowerStr key)
      else lowerStr key := by
  unfold getAdaptKey
  rw [hcs]
  simp [jsThisV2]

theorem adaptKey_ci_lower (attrs : HeaderAttrs)
    (hcs : jsIsTrue attrs.KeyCaseSensitive = false) (s : String) :
    getAdaptKey attrs (lowerStr s) = getAdaptKey attrs s := by
  rw [getAdaptKey_ci attrs hcs]
  by_cases h : jsIsTrue (jsOrStr attrs.StripKey "yes") = true
  · simp only [h, if_true]
    rw [lowerStr_idem]
  · simp only [h, Bool.false_eq_true, if_false]
    exact lowerStr_idem s

theorem adaptKey_ci_idem (attrs : HeaderAttrs)
    (hcs : jsIsTrue attrs.KeyCaseSensitive = false) (s : String) :
    getAdaptKey attrs (getAdaptKey attrs s) = getAdaptKey attrs s := by
  rw [getAdaptKey_ci attrs hcs]
  by_cases h : jsIsTrue (jsOrStr attrs.StripKey "yes") = true
  · simp only [h, if_true]
    have h1 : lowerStr (stripKeyMdx (lowerStr s)) = stripKeyMdx (lowerStr s) := by
      rw [← stripKeyMdx_lowerStr, lowerStr_idem]
    rw [h1, stripKeyMdx_idem]
  · simp only [h, Bool.false_eq_true, if_false]
    exact lowerStr_idem s

theorem head?_drop_eq_get? {α : Type} (l : List α) (n : Nat) :
    (l.drop n).head? = l.get? n := by
  rw [List.head?_eq_getElem?]
  simp [List.get?_eq_getElem?]

/-- Claim C8 as amended — restricted to *case-insensitive* dictionaries
(`KeyCaseSensitive` false, as forced by the counterexample), and queries
without surrounding whitespace: for every well-formed such dictionary and
every stored keyword `Q`, the first element of `getWordList(Q)` adapts equal
to `adapt_key(Q)`. -/
theorem C8_amended_first_match_ci (attrs : HeaderAttrs) (d : Dict) (Q : String)
    (hcs : jsIsTrue attrs.KeyCaseSensitive = false)
    (hwf : WellFormed (getAdaptKey attrs) d)
    (htrim : jsTrim Q = Q)
    (hstored : ∃ e ∈ d.allEntries, e.word = Q) :
    ∃ l e, mdx (getAdaptKey attrs) d Q none = some l ∧ l.head? = some e ∧
      getAdaptKey attrs e.word = getAdaptKey attrs Q := by
  have hlow : getAdaptKey attrs (lowerStr (jsTrim Q)) = getAdaptKey attrs Q := by
    rw [htrim]
    exact adaptKey_ci_lower attrs hcs Q
  have hidem : getAdaptKey attrs (getAdaptKey attrs (lowerStr (jsTrim Q))) =
      getAdaptKey attrs (lowerStr (jsTrim Q)) :=
    adaptKey_ci_idem attrs hcs _
  obtain ⟨e1, he1, he1w⟩ := hstored
  obtain ⟨kdx, idx, list, hseek, e, hget, hak_e⟩ :=
    seekVanguard_finds_match (getAdaptKey attrs) d hwf (lowerStr (jsTrim Q)) hidem
      ⟨e1, he1, by rw [he1w, hlow]⟩
  refine ⟨list.drop idx, e, ?_, ?_, hak_e.trans hlow⟩
  · unfold mdx
    simp only [hseek]
    rfl
  · rw [head?_drop_eq_get?]
    exact hget

/-- Witness for C8 amended: the default (case-insensitive, stripping) header
with the single stored keyword `"Hello-World"`, queried verbatim. -/
theorem C8_amended_first_match_ci_witness :
    ∃ l e, mdx (getAdaptKey {}) hwDict "Hello-World" none = some l ∧
      l.head? = some e ∧
      getAdaptKey {} e.word = getAdaptKey {} "Hello-World" :=
  C8_amended_first_match_ci {} hwDict "Hello-World" rfl
    (by
      unfold WellFormed
      refine ⟨by decide, by decide, by decide, by decide⟩)
    (by decide)
    ⟨⟨"Hello-World", 100⟩, by decide, rfl⟩

end Mdict
